import Mathlib

set_option maxHeartbeats 1000000

/-!
Shallow embedding of the grahh-db graph database core (src/src/lib.rs).

Modelling choices, each justified by the source:
* `Key(u64)` is modelled as `Nat`; keys are only generated, displayed and
  compared, so the 64-bit width never matters for the claims.
* `Value(Vec<u8>)` is modelled as `List Nat` (the byte payload).
* `HashMap<K, V>` is modelled as an association list `List (K × V)`;
  a `HashMap` never holds two entries with the same key, and every table
  reachable through the public operations keeps its entry keys distinct, so
  per-key updates are rendered as pointwise maps over the list.
* `HashSet<Key>` is modelled as `Finset Nat`.
* Panics (`unwrap`, `assert!`, and `HashMap::get_disjoint_mut`, which panics
  when the two key arguments are equal) are modelled by returning `none`:
  an operation of result type `Option σ` yields `none` exactly when the Rust
  code aborts the process.
-/

/-- Association-list lookup: the value stored at the first entry whose key is
`k`, mirroring `HashMap::get`. -/
def alook {α β : Type} [DecidableEq α] (k : α) : List (α × β) → Option β
  | [] => none
  | p :: l => if p.1 = k then some p.2 else alook k l

/-- Update the value stored at key `k` in place (`HashMap::get_mut` followed by
a mutation of the value). Entries with other keys are untouched. -/
def aset {α β : Type} [DecidableEq α] (k : α) (f : β → β) (l : List (α × β)) :
    List (α × β) :=
  l.map fun p => if p.1 = k then (p.1, f p.2) else p

/-- Delete the entry with key `k` (`HashMap::remove`). -/
def adel {α β : Type} [DecidableEq α] (k : α) : List (α × β) → List (α × β)
  | [] => []
  | p :: l => if p.1 = k then adel k l else p :: adel k l

/-- Apply `f` to every stored value (`iter_mut` over all entries). -/
def amapVal {α β : Type} (f : β → β) (l : List (α × β)) : List (α × β) :=
  l.map fun p => (p.1, f p.2)

/-- Apply `f` to the values of all entries whose key lies in `s`; this renders
the cascade loop of `Database::remove`, which visits each recorded neighbour
key and mutates that entry. -/
def asetIn {α β : Type} [DecidableEq α] (s : Finset α) (f : β → β)
    (l : List (α × β)) : List (α × β) :=
  l.map fun p => if p.1 ∈ s then (p.1, f p.2) else p

theorem alook_cons {α β : Type} [DecidableEq α] (k j : α) (v : β)
    (l : List (α × β)) :
    alook j ((k, v) :: l) = if k = j then some v else alook j l := rfl

theorem aset_cons {α β : Type} [DecidableEq α] (k : α) (f : β → β)
    (p : α × β) (l : List (α × β)) :
    aset k f (p :: l) =
      (if p.1 = k then (p.1, f p.2) else p) :: aset k f l := by
  simp [aset]

theorem asetIn_cons {α β : Type} [DecidableEq α] (s : Finset α) (f : β → β)
    (p : α × β) (l : List (α × β)) :
    asetIn s f (p :: l) =
      (if p.1 ∈ s then (p.1, f p.2) else p) :: asetIn s f l := by
  simp [asetIn]

theorem amapVal_cons {α β : Type} (f : β → β) (p : α × β)
    (l : List (α × β)) :
    amapVal f (p :: l) = (p.1, f p.2) :: amapVal f l := rfl

theorem alook_aset_self {α β : Type} [DecidableEq α] (k : α) (f : β → β)
    (l : List (α × β)) : alook k (aset k f l) = (alook k l).map f := by
  induction l with
  | nil => rfl
  | cons p l ih =>
    rw [aset_cons]
    by_cases h : p.1 = k
    · simp [alook, h]
    · simp [alook, h, ih]

theorem alook_aset_ne {α β : Type} [DecidableEq α] {k j : α} (f : β → β)
    (l : List (α × β)) (h : j ≠ k) : alook j (aset k f l) = alook j l := by
  induction l with
  | nil => rfl
  | cons p l ih =>
    rw [aset_cons]
    by_cases hp : p.1 = k
    · have hpj : p.1 ≠ j := by rw [hp]; exact fun hh => h hh.symm
      simp [alook, hp, hpj, ih, h, h.symm]
    · by_cases hj : p.1 = j <;> simp [alook, hp, hj, ih, h, h.symm]

theorem adel_cons {α β : Type} [DecidableEq α] (k : α) (p : α × β)
    (l : List (α × β)) :
    adel k (p :: l) = if p.1 = k then adel k l else p :: adel k l := rfl

theorem alook_adel_self {α β : Type} [DecidableEq α] (k : α)
    (l : List (α × β)) : alook k (adel k l) = none := by
  induction l with
  | nil => rfl
  | cons p l ih =>
    rw [adel_cons]
    by_cases h : p.1 = k
    · simp [h, ih]
    · simp [alook, h, ih]

theorem alook_adel_ne {α β : Type} [DecidableEq α] {k j : α}
    (l : List (α × β)) (h : j ≠ k) : alook j (adel k l) = alook j l := by
  induction l with
  | nil => rfl
  | cons p l ih =>
    rw [adel_cons]
    by_cases hp : p.1 = k
    · have hpj : p.1 ≠ j := by rw [hp]; exact fun hh => h hh.symm
      simp [alook, hp, hpj, ih, h, h.symm]
    · by_cases hj : p.1 = j <;> simp [alook, hp, hj, ih, h, h.symm]

theorem alook_amapVal {α β : Type} [DecidableEq α] (f : β → β) (j : α)
    (l : List (α × β)) : alook j (amapVal f l) = (alook j l).map f := by
  induction l with
  | nil => rfl
  | cons p l ih =>
    rw [amapVal_cons]
    by_cases h : p.1 = j <;> simp [alook, h, ih]

theorem alook_asetIn {α β : Type} [DecidableEq α] (s : Finset α) (f : β → β)
    (j : α) (l : List (α × β)) :
    alook j (asetIn s f l) =
      if j ∈ s then (alook j l).map f else alook j l := by
  induction l with
  | nil => simp [asetIn, alook]
  | cons p l ih =>
    rw [asetIn_cons]
    by_cases hp : p.1 = j
    · subst hp
      by_cases hs : p.1 ∈ s <;> simp [alook, hs]
    · by_cases hs : p.1 ∈ s <;> simp [alook, hp, hs, ih]

theorem alook_eq_none_iff {α β : Type} [DecidableEq α] (k : α)
    (l : List (α × β)) : alook k l = none ↔ k ∉ l.map Prod.fst := by
  induction l with
  | nil => simp [alook]
  | cons p l ih =>
    by_cases h : p.1 = k
    · subst h; simp [alook]
    · have hk : ¬k = p.1 := fun hh => h hh.symm
      simp [alook, h, ih, hk]

theorem alook_mem {α β : Type} [DecidableEq α] {k : α} {v : β}
    {l : List (α × β)} (h : alook k l = some v) : (k, v) ∈ l := by
  induction l with
  | nil => simp [alook] at h
  | cons p l ih =>
    obtain ⟨a, b⟩ := p
    by_cases hp : a = k
    · simp [alook, hp] at h
      subst hp; subst h
      exact List.mem_cons_self _ _
    · simp [alook, hp] at h
      exact List.mem_cons_of_mem _ (ih h)

theorem alook_of_mem_nodup {α β : Type} [DecidableEq α] {k : α} {v : β}
    {l : List (α × β)} (hnd : (l.map Prod.fst).Nodup) (h : (k, v) ∈ l) :
    alook k l = some v := by
  induction l with
  | nil => simp at h
  | cons p l ih =>
    obtain ⟨a, b⟩ := p
    simp only [List.map_cons, List.nodup_cons] at hnd
    rcases List.mem_cons.mp h with h1 | h1
    · simp only [Prod.mk.injEq] at h1
      obtain ⟨h1a, h1b⟩ := h1
      subst h1a; subst h1b
      simp [alook]
    · have hak : a ≠ k := by
        intro hh; subst hh
        exact hnd.1 (List.mem_map_of_mem Prod.fst h1)
      simp [alook, hak]
      exact ih hnd.2 h1

theorem map_fst_aset {α β : Type} [DecidableEq α] (k : α) (f : β → β)
    (l : List (α × β)) : (aset k f l).map Prod.fst = l.map Prod.fst := by
  induction l with
  | nil => rfl
  | cons p l ih =>
    by_cases h : p.1 = k <;> simp [aset_cons, h, ih]

theorem map_fst_amapVal {α β : Type} (f : β → β) (l : List (α × β)) :
    (amapVal f l).map Prod.fst = l.map Prod.fst := by
  induction l with
  | nil => rfl
  | cons p l ih => simp [amapVal_cons, ih]

/-- A stored node (struct `Node` in src/src/lib.rs): one opaque byte payload
and the labeled adjacency map `HashMap<String, HashSet<Key>>`. -/
structure Node where
  value : List Nat
  connections : List (String × Finset Nat)
deriving DecidableEq

/-- Rendering of `Node::new`: wraps the (already serialized) value with an
empty adjacency map. -/
def Node.new (v : List Nat) : Node :=
  { value := v, connections := [] }

/-- Rendering of `Node::get_connections`: the neighbour set stored for `kind`,
or the shared empty set when the label is absent. -/
def Node.getConnections (n : Node) (kind : String) : Finset Nat :=
  (alook kind n.connections).getD ∅

/-- Rendering of `Node::connect`: insert `key` into the set stored at `kind`,
creating the entry `(kind, {key})` when the label is absent. -/
def Node.connect (n : Node) (kind : String) (key : Nat) : Node :=
  { n with
    connections :=
      match alook kind n.connections with
      | some _ => aset kind (fun s => insert key s) n.connections
      | none => (kind, ({key} : Finset Nat)) :: n.connections }

/-- Rendering of `Node::remove_connection`: erase `key` from every label's
neighbour set (the sets stay in the map, possibly empty). -/
def Node.removeConn (n : Node) (key : Nat) : Node :=
  { n with connections := amapVal (fun s => s.erase key) n.connections }

/-- The first component of `Node::destruct`: every neighbour key recorded
under any label, as one set (the Rust iterator flat-maps the label sets; the
cascade consumer is insensitive to order and multiplicity). -/
def Node.neighborKeys (n : Node) : Finset Nat :=
  n.connections.foldr (fun p acc => p.2 ∪ acc) ∅

/-- `j` is recorded somewhere in `n`'s adjacency map: the "appears in any
adjacency set under any label" relation the spec's invariants quantify over. -/
def NodeHas (n : Node) (j : Nat) : Prop :=
  ∃ p ∈ n.connections, j ∈ p.2

instance (n : Node) (j : Nat) : Decidable (NodeHas n j) :=
  inferInstanceAs (Decidable (∃ p ∈ n.connections, j ∈ p.2))

theorem mem_neighborKeys (n : Node) (j : Nat) :
    j ∈ n.neighborKeys ↔ NodeHas n j := by
  unfold Node.neighborKeys NodeHas
  induction n.connections with
  | nil => simp
  | cons p l ih => simp [ih]

theorem value_connect (n : Node) (kind : String) (key : Nat) :
    (n.connect kind key).value = n.value := by
  unfold Node.connect
  cases alook kind n.connections <;> rfl

theorem value_removeConn (n : Node) (key : Nat) :
    (n.removeConn key).value = n.value := rfl

theorem getConnections_connect_self (n : Node) (kind : String) (key : Nat) :
    (n.connect kind key).getConnections kind =
      insert key (n.getConnections kind) := by
  unfold Node.connect Node.getConnections
  cases h : alook kind n.connections with
  | none => simp [alook_cons, h]
  | some s => simp [alook_aset_self, h]

theorem getConnections_connect_ne (n : Node) {kind kind' : String} (key : Nat)
    (h : kind' ≠ kind) :
    (n.connect kind key).getConnections kind' = n.getConnections kind' := by
  unfold Node.connect Node.getConnections
  cases hl : alook kind n.connections with
  | none =>
    have hk : ¬kind = kind' := fun hh => h hh.symm
    simp [alook_cons, hk]
  | some s => simp [alook_aset_ne _ _ h]

theorem getConnections_removeConn (n : Node) (kind : String) (key : Nat) :
    (n.removeConn key).getConnections kind =
      (n.getConnections kind).erase key := by
  unfold Node.removeConn Node.getConnections
  rw [alook_amapVal]
  cases alook kind n.connections <;> simp

theorem nodeHas_new (v : List Nat) (j : Nat) : ¬ NodeHas (Node.new v) j := by
  simp [NodeHas, Node.new]

theorem nodeHas_connect (n : Node) (kind : String) (key j : Nat) :
    NodeHas (n.connect kind key) j ↔ NodeHas n j ∨ j = key := by
  unfold Node.connect NodeHas
  cases h : alook kind n.connections with
  | none =>
    simp only []
    constructor
    · rintro ⟨p, hp, hj⟩
      rcases List.mem_cons.mp hp with h1 | h1
      · subst h1
        simp at hj
        right; exact hj
      · exact Or.inl ⟨p, h1, hj⟩
    · rintro (⟨p, hp, hj⟩ | rfl)
      · exact ⟨p, List.mem_cons_of_mem _ hp, hj⟩
      · exact ⟨(kind, {j}), List.mem_cons_self _ _, by simp⟩
  | some s =>
    simp only []
    constructor
    · rintro ⟨p, hp, hj⟩
      unfold aset at hp
      rcases List.mem_map.mp hp with ⟨q, hq, hqe⟩
      by_cases hqk : q.1 = kind
      · rw [if_pos hqk] at hqe
        subst hqe
        simp at hj
        rcases hj with rfl | hj
        · right; rfl
        · exact Or.inl ⟨q, hq, hj⟩
      · rw [if_neg hqk] at hqe
        subst hqe
        exact Or.inl ⟨q, hq, hj⟩
    · rintro (⟨p, hp, hj⟩ | hk)
      · refine ⟨(if p.1 = kind then (p.1, insert key p.2) else p), ?_, ?_⟩
        · unfold aset
          exact List.mem_map.mpr ⟨p, hp, rfl⟩
        · by_cases hpk : p.1 = kind <;> simp [hpk, hj]
      · have hm := alook_mem h
        refine ⟨(kind, insert key s), ?_, by simp [hk]⟩
        unfold aset
        exact List.mem_map.mpr ⟨(kind, s), hm, by simp⟩

theorem nodeHas_removeConn (n : Node) (key j : Nat) :
    NodeHas (n.removeConn key) j ↔ NodeHas n j ∧ j ≠ key := by
  unfold Node.removeConn NodeHas amapVal
  constructor
  · rintro ⟨p, hp, hj⟩
    rcases List.mem_map.mp hp with ⟨q, hq, hqe⟩
    subst hqe
    simp only [Finset.mem_erase] at hj
    exact ⟨⟨q, hq, hj.2⟩, hj.1⟩
  · rintro ⟨⟨p, hp, hj⟩, hne⟩
    exact ⟨(p.1, p.2.erase key), List.mem_map.mpr ⟨p, hp, rfl⟩,
      Finset.mem_erase.mpr ⟨hne, hj⟩⟩

theorem nodeHas_of_mem_getConnections {n : Node} {kind : String} {j : Nat}
    (h : j ∈ n.getConnections kind) : NodeHas n j := by
  unfold Node.getConnections at h
  cases hl : alook kind n.connections with
  | none => rw [hl] at h; simp at h
  | some s =>
    rw [hl] at h
    simp at h
    exact ⟨(kind, s), alook_mem hl, h⟩

theorem nodeHas_getConnections_of_nodup {n : Node} {j : Nat}
    (hnd : (n.connections.map Prod.fst).Nodup) (h : NodeHas n j) :
    ∃ kind, j ∈ n.getConnections kind := by
  obtain ⟨p, hp, hj⟩ := h
  refine ⟨p.1, ?_⟩
  unfold Node.getConnections
  rw [alook_of_mem_nodup hnd (by exact hp)]
  exact hj

theorem kinds_nodup_connect {n : Node} (kind : String) (key : Nat)
    (hnd : (n.connections.map Prod.fst).Nodup) :
    ((n.connect kind key).connections.map Prod.fst).Nodup := by
  unfold Node.connect
  cases h : alook kind n.connections with
  | none =>
    simp only [List.map_cons, List.nodup_cons]
    exact ⟨(alook_eq_none_iff kind n.connections).mp h, hnd⟩
  | some s => rw [map_fst_aset]; exact hnd

theorem kinds_nodup_removeConn {n : Node} (key : Nat)
    (hnd : (n.connections.map Prod.fst).Nodup) :
    ((n.removeConn key).connections.map Prod.fst).Nodup := by
  unfold Node.removeConn
  rw [map_fst_amapVal]
  exact hnd

/-- Persistence strategy (enum `Storage`): nothing, or a single snapshot file
at a path. -/
inductive Storage where
  | memory : Storage
  | file : String → Storage
deriving DecidableEq

/-- The database (struct `Database`): node table plus storage backend. -/
structure Database where
  inner : List (Nat × Node)
  storage : Storage
deriving DecidableEq

/-- Rendering of `Database::in_memory`. -/
def Database.inMemory : Database :=
  { inner := [], storage := .memory }

/-- Rendering of `Database::create`. `Key::generate()` draws a fresh
timestamp from the wall clock; that nondeterministic draw is passed in as the
`key` argument. The source inserts the node and then asserts that no previous
entry existed; the collision assert is the `none` result. -/
def Database.createM (db : Database) (key : Nat) (v : List Nat) :
    Option (Database × Nat) :=
  if (alook key db.inner).isSome then none
  else some ({ db with inner := (key, Node.new v) :: db.inner }, key)

/-- Rendering of `Database::remove`. An absent key short-circuits with `None`
(the `?` operator). Otherwise the node is taken out of the table and the
cascade loop visits every neighbour key recorded in it; each visit does
`get_mut(..).unwrap()`, so a recorded neighbour that is no longer in the
(already shrunk) table is a panic, rendered as `none`. The loop's per-entry
mutation is written as one pointwise pass over the table. -/
def Database.removeM (db : Database) (key : Nat) :
    Option (Option (List Nat) × Database) :=
  match alook key db.inner with
  | none => some (none, db)
  | some node =>
    if ∀ c ∈ node.neighborKeys, (alook c (adel key db.inner)).isSome then
      some (some node.value,
        { db with inner := (asetIn node.neighborKeys
            (fun n => n.removeConn key) (adel key db.inner)) })
    else none

/-- Rendering of `Database::connect`. `get_disjoint_mut [&first_key,
&second_key]` panics when the two keys are equal (overlapping keys), before
any presence check: that is the leading `none` branch. With distinct keys it
returns `false` and changes nothing when either key is absent, else mutates
both nodes and returns `true`. -/
def Database.connectM (db : Database) (firstKey : Nat) (firstKind : String)
    (secondKey : Nat) (secondKind : String) : Option (Database × Bool) :=
  if firstKey = secondKey then none
  else
    match alook firstKey db.inner, alook secondKey db.inner with
    | some _, some _ =>
      some ({ db with
        inner := aset secondKey (fun n => n.connect secondKind firstKey)
          (aset firstKey (fun n => n.connect firstKind secondKey) db.inner) },
        true)
    | _, _ => some (db, false)

/-- Rendering of `Database::disconnect`: same `get_disjoint_mut` shape as
`connect`, but each side drops the other key from every label's set. -/
def Database.disconnectM (db : Database) (firstKey secondKey : Nat) :
    Option (Database × Bool) :=
  if firstKey = secondKey then none
  else
    match alook firstKey db.inner, alook secondKey db.inner with
    | some _, some _ =>
      some ({ db with
        inner := aset secondKey (fun n => n.removeConn firstKey)
          (aset firstKey (fun n => n.removeConn secondKey) db.inner) },
        true)
    | _, _ => some (db, false)

/-- Rendering of `Database::select`: the neighbour set for `kind` on `key`'s
node, or the shared empty set when `key` is unknown. -/
def Database.select (db : Database) (key : Nat) (kind : String) : Finset Nat :=
  match alook key db.inner with
  | none => ∅
  | some n => n.getConnections kind

/-- Rendering of `Database::get`. -/
def Database.get (db : Database) (key : Nat) : Option Node :=
  alook key db.inner

/-- States reachable from the empty database by successful (non-panicking)
public mutations, the "sequences of create/connect/remove/disconnect
operations starting from an empty database" of the spec. The key handed to
`createM` is the nondeterministic timestamp draw. -/
inductive Reach : Database → Prop where
  | empty : Reach Database.inMemory
  | create (db db' : Database) (k : Nat) (v : List Nat) :
      Reach db → Database.createM db k v = some (db', k) → Reach db'
  | connect (db db' : Database) (k1 : Nat) (l1 : String) (k2 : Nat)
      (l2 : String) (b : Bool) :
      Reach db → Database.connectM db k1 l1 k2 l2 = some (db', b) → Reach db'
  | disconnect (db db' : Database) (k1 k2 : Nat) (b : Bool) :
      Reach db → Database.disconnectM db k1 k2 = some (db', b) → Reach db'
  | remove (db db' : Database) (k : Nat) (v : Option (List Nat)) :
      Reach db → Database.removeM db k = some (v, db') → Reach db'

theorem alook_aset_pair {α β : Type} [DecidableEq α] {k1 k2 : α}
    (hne : k1 ≠ k2) (f g : β → β) (l : List (α × β)) (j : α) :
    alook j (aset k2 g (aset k1 f l)) =
      if j = k1 then (alook k1 l).map f
      else if j = k2 then (alook k2 l).map g
      else alook j l := by
  by_cases h1 : j = k1
  · subst h1
    rw [alook_aset_ne _ _ hne, alook_aset_self]
    simp
  · by_cases h2 : j = k2
    · subst h2
      rw [alook_aset_self, alook_aset_ne _ _ (Ne.symm hne)]
      simp [h1]
    · rw [alook_aset_ne _ _ h2, alook_aset_ne _ _ h1]
      simp [h1, h2]

/-- The conjunction of structural properties every reachable table enjoys:
referential integrity, mutual reference (edge symmetry), absence of
self-references, and uniqueness of label entries inside each node. -/
structure DbInv (db : Database) : Prop where
  integrity : ∀ k n j, alook k db.inner = some n → NodeHas n j →
    (alook j db.inner).isSome
  mutualRef : ∀ k n j, alook k db.inner = some n → NodeHas n j →
    ∃ m, alook j db.inner = some m ∧ NodeHas m k
  noSelf : ∀ k n, alook k db.inner = some n → ¬ NodeHas n k
  labelsNodup : ∀ k n, alook k db.inner = some n →
    (n.connections.map Prod.fst).Nodup

theorem inv_empty : DbInv Database.inMemory := by
  constructor <;> intro k n <;> simp [Database.inMemory, alook]

theorem inv_create {db db' : Database} {k kr : Nat} {v : List Nat}
    (hInv : DbInv db) (h : Database.createM db k v = some (db', kr)) :
    DbInv db' := by
  unfold Database.createM at h
  by_cases hk : (alook k db.inner).isSome
  · rw [if_pos hk] at h
    exact absurd h (by simp)
  · rw [if_neg hk] at h
    simp only [Option.some.injEq, Prod.mk.injEq] at h
    obtain ⟨h1, h2⟩ := h
    subst h1
    have hlook : ∀ j, alook j ((k, Node.new v) :: db.inner) =
        if k = j then some (Node.new v) else alook j db.inner :=
      fun j => alook_cons k j (Node.new v) db.inner
    constructor
    · intro a n j ha hnj
      simp only at ha ⊢
      rw [hlook] at ha
      by_cases hak : k = a
      · rw [if_pos hak] at ha
        cases ha
        exact absurd hnj (nodeHas_new v j)
      · rw [if_neg hak] at ha
        have hold := hInv.integrity a n j ha hnj
        rw [hlook]
        by_cases hkj : k = j <;> simp [hkj, hold]
    · intro a n j ha hnj
      simp only at ha ⊢
      rw [hlook] at ha
      by_cases hak : k = a
      · rw [if_pos hak] at ha
        cases ha
        exact absurd hnj (nodeHas_new v j)
      · rw [if_neg hak] at ha
        obtain ⟨m, hm, hma⟩ := hInv.mutualRef a n j ha hnj
        have hjk : k ≠ j := by
          intro hh
          rw [← hh] at hm
          rw [Option.not_isSome_iff_eq_none.mp hk] at hm
          cases hm
        exact ⟨m, by rw [hlook, if_neg hjk]; exact hm, hma⟩
    · intro a n ha
      simp only at ha
      rw [hlook] at ha
      by_cases hak : k = a
      · rw [if_pos hak] at ha
        cases ha
        exact nodeHas_new v a
      · rw [if_neg hak] at ha
        exact hInv.noSelf a n ha
    · intro a n ha
      simp only at ha
      rw [hlook] at ha
      by_cases hak : k = a
      · rw [if_pos hak] at ha
        cases ha
        simp [Node.new]
      · rw [if_neg hak] at ha
        exact hInv.labelsNodup a n ha

theorem inv_connect {db db' : Database} {k1 k2 : Nat} {l1 l2 : String}
    {b : Bool} (hInv : DbInv db)
    (h : Database.connectM db k1 l1 k2 l2 = some (db', b)) : DbInv db' := by
  unfold Database.connectM at h
  by_cases hne : k1 = k2
  · rw [if_pos hne] at h
    cases h
  · rw [if_neg hne] at h
    cases h1 : alook k1 db.inner with
    | none =>
      rw [h1] at h
      cases h2 : alook k2 db.inner <;> rw [h2] at h <;>
        (simp only [Option.some.injEq, Prod.mk.injEq] at h;
         obtain ⟨hd, hb⟩ := h; subst hd; exact hInv)
    | some n1 =>
      rw [h1] at h
      cases h2 : alook k2 db.inner with
      | none =>
        rw [h2] at h
        simp only [Option.some.injEq, Prod.mk.injEq] at h
        obtain ⟨hd, hb⟩ := h
        subst hd
        exact hInv
      | some n2 =>
        rw [h2] at h
        simp only [Option.some.injEq, Prod.mk.injEq] at h
        obtain ⟨hd, hb⟩ := h
        subst hd
        have hlook : ∀ j, alook j
            (aset k2 (fun n => n.connect l2 k1)
              (aset k1 (fun n => n.connect l1 k2) db.inner)) =
            if j = k1 then some (n1.connect l1 k2)
            else if j = k2 then some (n2.connect l2 k1)
            else alook j db.inner := by
          intro j
          rw [alook_aset_pair hne _ _ db.inner j, h1, h2]
          rfl
        have hsome : ∀ j,
            (alook j (aset k2 (fun n => n.connect l2 k1)
              (aset k1 (fun n => n.connect l1 k2) db.inner))).isSome =
            (alook j db.inner).isSome := by
          intro j
          rw [hlook]
          by_cases hj1 : j = k1
          · simp [hj1, h1]
          · by_cases hj2 : j = k2
            · simp [hj1, hj2, h2, Ne.symm hne]
            · simp [hj1, hj2]
        constructor
        · intro a n j ha hnj
          simp only at ha ⊢
          rw [hsome]
          rw [hlook] at ha
          by_cases ha1 : a = k1
          · rw [if_pos ha1] at ha
            cases ha
            rcases (nodeHas_connect n1 l1 k2 j).mp hnj with hn | heq
            · exact hInv.integrity k1 n1 j h1 hn
            · rw [heq, h2]; rfl
          · rw [if_neg ha1] at ha
            by_cases ha2 : a = k2
            · rw [if_pos ha2] at ha
              cases ha
              rcases (nodeHas_connect n2 l2 k1 j).mp hnj with hn | heq
              · exact hInv.integrity k2 n2 j h2 hn
              · rw [heq, h1]; rfl
            · rw [if_neg ha2] at ha
              exact hInv.integrity a n j ha hnj
        · intro a n j ha hnj
          simp only at ha ⊢
          rw [hlook] at ha
          by_cases ha1 : a = k1
          · rw [if_pos ha1] at ha
            cases ha
            rcases (nodeHas_connect n1 l1 k2 j).mp hnj with hn | heq
            · obtain ⟨m, hm, hma⟩ := hInv.mutualRef k1 n1 j h1 hn
              have hj1 : j ≠ k1 := by
                intro hh
                rw [hh] at hn
                exact hInv.noSelf k1 n1 h1 hn
              by_cases hj2 : j = k2
              · refine ⟨n2.connect l2 k1, ?_, ?_⟩
                · rw [hlook, if_neg hj1, if_pos hj2]
                · rw [ha1]
                  exact (nodeHas_connect n2 l2 k1 k1).mpr (Or.inr rfl)
              · refine ⟨m, ?_, by rw [ha1]; exact hma⟩
                rw [hlook, if_neg hj1, if_neg hj2]
                exact hm
            · refine ⟨n2.connect l2 k1, ?_, ?_⟩
              · rw [heq, hlook, if_neg (Ne.symm hne), if_pos rfl]
              · rw [ha1]
                exact (nodeHas_connect n2 l2 k1 k1).mpr (Or.inr rfl)
          · rw [if_neg ha1] at ha
            by_cases ha2 : a = k2
            · rw [if_pos ha2] at ha
              cases ha
              rcases (nodeHas_connect n2 l2 k1 j).mp hnj with hn | heq
              · obtain ⟨m, hm, hma⟩ := hInv.mutualRef k2 n2 j h2 hn
                have hj2 : j ≠ k2 := by
                  intro hh
                  rw [hh] at hn
                  exact hInv.noSelf k2 n2 h2 hn
                by_cases hj1 : j = k1
                · refine ⟨n1.connect l1 k2, ?_, ?_⟩
                  · rw [hlook, if_pos hj1]
                  · rw [ha2]
                    exact (nodeHas_connect n1 l1 k2 k2).mpr (Or.inr rfl)
                · refine ⟨m, ?_, by rw [ha2]; exact hma⟩
                  rw [hlook, if_neg hj1, if_neg hj2]
                  exact hm
              · refine ⟨n1.connect l1 k2, ?_, ?_⟩
                · rw [heq, hlook, if_pos rfl]
                · rw [ha2]
                  exact (nodeHas_connect n1 l1 k2 k2).mpr (Or.inr rfl)
            · rw [if_neg ha2] at ha
              obtain ⟨m, hm, hma⟩ := hInv.mutualRef a n j ha hnj
              by_cases hj1 : j = k1
              · have hmn : m = n1 := by
                  rw [hj1, h1] at hm
                  cases hm
                  rfl
                refine ⟨n1.connect l1 k2, ?_, ?_⟩
                · rw [hlook, if_pos hj1]
                · exact (nodeHas_connect _ _ _ _).mpr (Or.inl (hmn ▸ hma))
              · by_cases hj2 : j = k2
                · have hmn : m = n2 := by
                    rw [hj2, h2] at hm
                    cases hm
                    rfl
                  refine ⟨n2.connect l2 k1, ?_, ?_⟩
                  · rw [hlook, if_neg hj1, if_pos hj2]
                  · exact (nodeHas_connect _ _ _ _).mpr (Or.inl (hmn ▸ hma))
                · refine ⟨m, ?_, hma⟩
                  rw [hlook, if_neg hj1, if_neg hj2]
                  exact hm
        · intro a n ha
          simp only at ha
          rw [hlook] at ha
          by_cases ha1 : a = k1
          · rw [if_pos ha1] at ha
            cases ha
            intro hc
            rcases (nodeHas_connect n1 l1 k2 a).mp hc with hn | heq
            · rw [ha1] at hn
              exact hInv.noSelf k1 n1 h1 hn
            · rw [ha1] at heq
              exact hne heq
          · rw [if_neg ha1] at ha
            by_cases ha2 : a = k2
            · rw [if_pos ha2] at ha
              cases ha
              intro hc
              rcases (nodeHas_connect n2 l2 k1 a).mp hc with hn | heq
              · rw [ha2] at hn
                exact hInv.noSelf k2 n2 h2 hn
              · rw [ha2] at heq
                exact hne heq.symm
            · rw [if_neg ha2] at ha
              exact hInv.noSelf a n ha
        · intro a n ha
          simp only at ha
          rw [hlook] at ha
          by_cases ha1 : a = k1
          · rw [if_pos ha1] at ha
            cases ha
            exact kinds_nodup_connect l1 k2 (hInv.labelsNodup k1 n1 h1)
          · rw [if_neg ha1] at ha
            by_cases ha2 : a = k2
            · rw [if_pos ha2] at ha
              cases ha
              exact kinds_nodup_connect l2 k1 (hInv.labelsNodup k2 n2 h2)
            · rw [if_neg ha2] at ha
              exact hInv.labelsNodup a n ha

theorem inv_disconnect {db db' : Database} {k1 k2 : Nat} {b : Bool}
    (hInv : DbInv db)
    (h : Database.disconnectM db k1 k2 = some (db', b)) : DbInv db' := by
  unfold Database.disconnectM at h
  by_cases hne : k1 = k2
  · rw [if_pos hne] at h
    cases h
  · rw [if_neg hne] at h
    cases h1 : alook k1 db.inner with
    | none =>
      rw [h1] at h
      cases h2 : alook k2 db.inner <;> rw [h2] at h <;>
        (simp only [Option.some.injEq, Prod.mk.injEq] at h;
         obtain ⟨hd, hb⟩ := h; subst hd; exact hInv)
    | some n1 =>
      rw [h1] at h
      cases h2 : alook k2 db.inner with
      | none =>
        rw [h2] at h
        simp only [Option.some.injEq, Prod.mk.injEq] at h
        obtain ⟨hd, hb⟩ := h
        subst hd
        exact hInv
      | some n2 =>
        rw [h2] at h
        simp only [Option.some.injEq, Prod.mk.injEq] at h
        obtain ⟨hd, hb⟩ := h
        subst hd
        have hlook : ∀ j, alook j
            (aset k2 (fun n => n.removeConn k1)
              (aset k1 (fun n => n.removeConn k2) db.inner)) =
            if j = k1 then some (n1.removeConn k2)
            else if j = k2 then some (n2.removeConn k1)
            else alook j db.inner := by
          intro j
          rw [alook_aset_pair hne _ _ db.inner j, h1, h2]
          rfl
        have hsome : ∀ j,
            (alook j (aset k2 (fun n => n.removeConn k1)
              (aset k1 (fun n => n.removeConn k2) db.inner))).isSome =
            (alook j db.inner).isSome := by
          intro j
          rw [hlook]
          by_cases hj1 : j = k1
          · simp [hj1, h1]
          · by_cases hj2 : j = k2
            · simp [hj1, hj2, h2, Ne.symm hne]
            · simp [hj1, hj2]
        constructor
        · intro a n j ha hnj
          simp only at ha ⊢
          rw [hsome]
          rw [hlook] at ha
          by_cases ha1 : a = k1
          · rw [if_pos ha1] at ha
            cases ha
            obtain ⟨hn, hjk⟩ := (nodeHas_removeConn n1 k2 j).mp hnj
            exact hInv.integrity k1 n1 j h1 hn
          · rw [if_neg ha1] at ha
            by_cases ha2 : a = k2
            · rw [if_pos ha2] at ha
              cases ha
              obtain ⟨hn, hjk⟩ := (nodeHas_removeConn n2 k1 j).mp hnj
              exact hInv.integrity k2 n2 j h2 hn
            · rw [if_neg ha2] at ha
              exact hInv.integrity a n j ha hnj
        · intro a n j ha hnj
          simp only at ha ⊢
          rw [hlook] at ha
          by_cases ha1 : a = k1
          · rw [if_pos ha1] at ha
            cases ha
            obtain ⟨hn, hjk2⟩ := (nodeHas_removeConn n1 k2 j).mp hnj
            obtain ⟨m, hm, hma⟩ := hInv.mutualRef k1 n1 j h1 hn
            have hj1 : j ≠ k1 := by
              intro hh
              rw [hh] at hn
              exact hInv.noSelf k1 n1 h1 hn
            refine ⟨m, ?_, by rw [ha1]; exact hma⟩
            rw [hlook, if_neg hj1, if_neg hjk2]
            exact hm
          · rw [if_neg ha1] at ha
            by_cases ha2 : a = k2
            · rw [if_pos ha2] at ha
              cases ha
              obtain ⟨hn, hjk1⟩ := (nodeHas_removeConn n2 k1 j).mp hnj
              obtain ⟨m, hm, hma⟩ := hInv.mutualRef k2 n2 j h2 hn
              have hj2 : j ≠ k2 := by
                intro hh
                rw [hh] at hn
                exact hInv.noSelf k2 n2 h2 hn
              refine ⟨m, ?_, by rw [ha2]; exact hma⟩
              rw [hlook, if_neg hjk1, if_neg hj2]
              exact hm
            · rw [if_neg ha2] at ha
              obtain ⟨m, hm, hma⟩ := hInv.mutualRef a n j ha hnj
              by_cases hj1 : j = k1
              · have hmn : m = n1 := by
                  rw [hj1, h1] at hm
                  cases hm
                  rfl
                refine ⟨n1.removeConn k2, ?_, ?_⟩
                · rw [hlook, if_pos hj1]
                · exact (nodeHas_removeConn n1 k2 a).mpr ⟨hmn ▸ hma, ha2⟩
              · by_cases hj2 : j = k2
                · have hmn : m = n2 := by
                    rw [hj2, h2] at hm
                    cases hm
                    rfl
                  refine ⟨n2.removeConn k1, ?_, ?_⟩
                  · rw [hlook, if_neg hj1, if_pos hj2]
                  · exact (nodeHas_removeConn n2 k1 a).mpr ⟨hmn ▸ hma, ha1⟩
                · refine ⟨m, ?_, hma⟩
                  rw [hlook, if_neg hj1, if_neg hj2]
                  exact hm
        · intro a n ha
          simp only at ha
          rw [hlook] at ha
          by_cases ha1 : a = k1
          · rw [if_pos ha1] at ha
            cases ha
            intro hc
            obtain ⟨hn, hak⟩ := (nodeHas_removeConn n1 k2 a).mp hc
            rw [ha1] at hn
            exact hInv.noSelf k1 n1 h1 hn
          · rw [if_neg ha1] at ha
            by_cases ha2 : a = k2
            · rw [if_pos ha2] at ha
              cases ha
              intro hc
              obtain ⟨hn, hak⟩ := (nodeHas_removeConn n2 k1 a).mp hc
              rw [ha2] at hn
              exact hInv.noSelf k2 n2 h2 hn
            · rw [if_neg ha2] at ha
              exact hInv.noSelf a n ha
        · intro a n ha
          simp only at ha
          rw [hlook] at ha
          by_cases ha1 : a = k1
          · rw [if_pos ha1] at ha
            cases ha
            exact kinds_nodup_removeConn k2 (hInv.labelsNodup k1 n1 h1)
          · rw [if_neg ha1] at ha
            by_cases ha2 : a = k2
            · rw [if_pos ha2] at ha
              cases ha
              exact kinds_nodup_removeConn k1 (hInv.labelsNodup k2 n2 h2)
            · rw [if_neg ha2] at ha
              exact hInv.labelsNodup a n ha

theorem inv_remove {db db' : Database} {key : Nat} {v : Option (List Nat)}
    (hInv : DbInv db) (h : Database.removeM db key = some (v, db')) :
    DbInv db' := by
  unfold Database.removeM at h
  cases hc : alook key db.inner with
  | none =>
    rw [hc] at h
    simp only [Option.some.injEq, Prod.mk.injEq] at h
    obtain ⟨hv, hd⟩ := h
    subst hd
    exact hInv
  | some node =>
    rw [hc] at h
    simp only [] at h
    by_cases hall : ∀ c ∈ node.neighborKeys, (alook c (adel key db.inner)).isSome
    · rw [if_pos hall] at h
      simp only [Option.some.injEq, Prod.mk.injEq] at h
      obtain ⟨hv, hd⟩ := h
      subst hd
      have hKS : key ∉ node.neighborKeys := by
        rw [mem_neighborKeys]
        exact hInv.noSelf key node hc
      have hlook : ∀ j, alook j (asetIn node.neighborKeys
          (fun n => n.removeConn key) (adel key db.inner)) =
          if j ∈ node.neighborKeys
          then (alook j (adel key db.inner)).map (fun n => n.removeConn key)
          else alook j (adel key db.inner) :=
        fun j => alook_asetIn _ _ j _
      have hkey_none : alook key (asetIn node.neighborKeys
          (fun n => n.removeConn key) (adel key db.inner)) = none := by
        rw [hlook, if_neg hKS]
        exact alook_adel_self _ _
      have hchar : ∀ j n, alook j (asetIn node.neighborKeys
          (fun n => n.removeConn key) (adel key db.inner)) = some n →
          j ≠ key ∧ ∃ n0, alook j db.inner = some n0 ∧
            ((j ∈ node.neighborKeys ∧ n = n0.removeConn key) ∨
             (j ∉ node.neighborKeys ∧ n = n0)) := by
        intro j n hj
        have hjkey : j ≠ key := by
          intro hh
          rw [hh, hkey_none] at hj
          cases hj
        refine ⟨hjkey, ?_⟩
        rw [hlook, alook_adel_ne _ hjkey] at hj
        by_cases hjS : j ∈ node.neighborKeys
        · rw [if_pos hjS] at hj
          cases h0 : alook j db.inner with
          | none => rw [h0] at hj; cases hj
          | some n0 =>
            rw [h0] at hj
            simp only [Option.map_some', Option.some.injEq] at hj
            exact ⟨n0, rfl, Or.inl ⟨hjS, hj.symm⟩⟩
        · rw [if_neg hjS] at hj
          exact ⟨n, hj, Or.inr ⟨hjS, rfl⟩⟩
      have hnoK : ∀ j n, alook j (asetIn node.neighborKeys
          (fun n => n.removeConn key) (adel key db.inner)) = some n →
          ¬ NodeHas n key := by
        intro j n hj hcon
        obtain ⟨hjkey, n0, h0, hcase⟩ := hchar j n hj
        rcases hcase with ⟨hjS, rfl⟩ | ⟨hjS, rfl⟩
        · exact ((nodeHas_removeConn n0 key key).mp hcon).2 rfl
        · obtain ⟨m, hm, hmj⟩ := hInv.mutualRef j n key h0 hcon
          rw [hc] at hm
          cases hm
          exact hjS ((mem_neighborKeys node j).mpr hmj)
      constructor
      · intro a n j ha hnj
        simp only at ha ⊢
        obtain ⟨hakey, n0, h0, hcase⟩ := hchar a n ha
        have hjkey : j ≠ key := by
          intro hh
          rw [hh] at hnj
          exact hnoK a n ha hnj
        have hnj0 : NodeHas n0 j := by
          rcases hcase with ⟨hjS, rfl⟩ | ⟨hjS, rfl⟩
          · exact ((nodeHas_removeConn n0 key j).mp hnj).1
          · exact hnj
        have hold := hInv.integrity a n0 j h0 hnj0
        rw [hlook]
        by_cases hjS : j ∈ node.neighborKeys <;>
          simp [hjS, alook_adel_ne _ hjkey, hold]
      · intro a n j ha hnj
        simp only at ha ⊢
        obtain ⟨hakey, n0, h0, hcase⟩ := hchar a n ha
        have hjkey : j ≠ key := by
          intro hh
          rw [hh] at hnj
          exact hnoK a n ha hnj
        have hnj0 : NodeHas n0 j := by
          rcases hcase with ⟨hjS, rfl⟩ | ⟨hjS, rfl⟩
          · exact ((nodeHas_removeConn n0 key j).mp hnj).1
          · exact hnj
        obtain ⟨m, hm, hma⟩ := hInv.mutualRef a n0 j h0 hnj0
        rw [hlook]
        by_cases hjS : j ∈ node.neighborKeys
        · refine ⟨m.removeConn key, ?_, ?_⟩
          · rw [if_pos hjS, alook_adel_ne _ hjkey, hm]
            rfl
          · exact (nodeHas_removeConn m key a).mpr ⟨hma, hakey⟩
        · refine ⟨m, ?_, hma⟩
          rw [if_neg hjS, alook_adel_ne _ hjkey]
          exact hm
      · intro a n ha hcon
        simp only at ha
        obtain ⟨hakey, n0, h0, hcase⟩ := hchar a n ha
        rcases hcase with ⟨hjS, rfl⟩ | ⟨hjS, rfl⟩
        · exact hInv.noSelf a n0 h0 ((nodeHas_removeConn n0 key a).mp hcon).1
        · exact hInv.noSelf a n h0 hcon
      · intro a n ha
        simp only at ha
        obtain ⟨hakey, n0, h0, hcase⟩ := hchar a n ha
        rcases hcase with ⟨hjS, rfl⟩ | ⟨hjS, rfl⟩
        · exact kinds_nodup_removeConn key (hInv.labelsNodup a n0 h0)
        · exact hInv.labelsNodup a n h0
    · rw [if_neg hall] at h
      cases h

theorem inv_of_reach {db : Database} (h : Reach db) : DbInv db := by
  induction h with
  | empty => exact inv_empty
  | create db db' k v hr heq ih => exact inv_create ih heq
  | connect db db' k1 l1 k2 l2 b hr heq ih => exact inv_connect ih heq
  | disconnect db db' k1 k2 b hr heq ih => exact inv_disconnect ih heq
  | remove db db' k v hr heq ih => exact inv_remove ih heq

/-- Rendering of `Storage::save` over an abstract serialized type `B` with
encoder `enc` (the external byte-serialization capability, specified only at
its boundary): `Memory` is a no-op, `File` truncates and rewrites the file at
its path with the full encoded table. The file system is a partial map from
paths to contents. -/
def Storage.saveF {B : Type} (enc : List (Nat × Node) → B) (s : Storage)
    (data : List (Nat × Node)) (fs : String → Option B) :
    String → Option B :=
  match s with
  | .memory => fs
  | .file path => fun q => if q = path then some (enc data) else fs q

/-- Rendering of `Database::save`: delegates to the storage backend with the
current full table. -/
def Database.saveF {B : Type} (enc : List (Nat × Node) → B) (db : Database)
    (fs : String → Option B) : String → Option B :=
  Storage.saveF enc db.storage db.inner fs

/-- Rendering of `Database::load` with abstract decoder `dec` and content
`emptyB` of a freshly created empty file: a missing path is created (empty)
and paired with an empty table backed by `File(path)`; an existing file is
read and decoded in full, a decode failure being a fatal `unwrap` (`none`). -/
def Database.loadF {B : Type} (dec : B → Option (List (Nat × Node)))
    (emptyB : B) (path : String) (fs : String → Option B) :
    Option (Database × (String → Option B)) :=
  match fs path with
  | none => some ({ inner := [], storage := .file path },
      fun q => if q = path then some emptyB else fs q)
  | some bytes =>
    match dec bytes with
    | none => none
    | some inner => some ({ inner := inner, storage := .file path }, fs)

theorem select_eq_of_some {db : Database} {k : Nat} {n : Node}
    (h : alook k db.inner = some n) (kind : String) :
    Database.select db k kind = n.getConnections kind := by
  unfold Database.select
  rw [h]

theorem select_eq_of_none {db : Database} {k : Nat}
    (h : alook k db.inner = none) (kind : String) :
    Database.select db k kind = ∅ := by
  unfold Database.select
  rw [h]

theorem connectM_true_char {db db' : Database} {k1 k2 : Nat}
    {l1 l2 : String}
    (h : Database.connectM db k1 l1 k2 l2 = some (db', true)) :
    k1 ≠ k2 ∧ ∃ n1 n2, alook k1 db.inner = some n1 ∧
      alook k2 db.inner = some n2 ∧
      db' = { db with inner := (aset k2 (fun n => n.connect l2 k1)
        (aset k1 (fun n => n.connect l1 k2) db.inner)) } := by
  unfold Database.connectM at h
  by_cases hne : k1 = k2
  · rw [if_pos hne] at h
    cases h
  · rw [if_neg hne] at h
    refine ⟨hne, ?_⟩
    cases h1 : alook k1 db.inner with
    | none =>
      rw [h1] at h
      cases h2 : alook k2 db.inner <;> rw [h2] at h <;> simp at h
    | some n1 =>
      rw [h1] at h
      cases h2 : alook k2 db.inner with
      | none =>
        rw [h2] at h
        simp at h
      | some n2 =>
        rw [h2] at h
        simp only [Option.some.injEq, Prod.mk.injEq] at h
        exact ⟨n1, n2, rfl, rfl, h.1.symm⟩

theorem disconnectM_true_char {db db' : Database} {k1 k2 : Nat}
    (h : Database.disconnectM db k1 k2 = some (db', true)) :
    k1 ≠ k2 ∧ ∃ n1 n2, alook k1 db.inner = some n1 ∧
      alook k2 db.inner = some n2 ∧
      db' = { db with inner := (aset k2 (fun n => n.removeConn k1)
        (aset k1 (fun n => n.removeConn k2) db.inner)) } := by
  unfold Database.disconnectM at h
  by_cases hne : k1 = k2
  · rw [if_pos hne] at h
    cases h
  · rw [if_neg hne] at h
    refine ⟨hne, ?_⟩
    cases h1 : alook k1 db.inner with
    | none =>
      rw [h1] at h
      cases h2 : alook k2 db.inner <;> rw [h2] at h <;> simp at h
    | some n1 =>
      rw [h1] at h
      cases h2 : alook k2 db.inner with
      | none =>
        rw [h2] at h
        simp at h
      | some n2 =>
        rw [h2] at h
        simp only [Option.some.injEq, Prod.mk.injEq] at h
        exact ⟨n1, n2, rfl, rfl, h.1.symm⟩

theorem remove_no_panic {db : Database} {key : Nat} {node : Node}
    (hInv : DbInv db) (hc : alook key db.inner = some node) :
    ∀ c ∈ node.neighborKeys, (alook c (adel key db.inner)).isSome := by
  intro c hcS
  have hnc : NodeHas node c := (mem_neighborKeys node c).mp hcS
  have hck : c ≠ key := by
    intro hh
    rw [hh] at hnc
    exact hInv.noSelf key node hc hnc
  rw [alook_adel_ne _ hck]
  exact hInv.integrity key node c hc hnc

theorem removeM_eq_of_some {db : Database} {key : Nat} {node : Node}
    (hc : alook key db.inner = some node)
    (hall : ∀ c ∈ node.neighborKeys, (alook c (adel key db.inner)).isSome) :
    Database.removeM db key = some (some node.value,
      { db with inner := (asetIn node.neighborKeys
        (fun n => n.removeConn key) (adel key db.inner)) }) := by
  unfold Database.removeM
  rw [hc]
  exact if_pos hall

theorem remove_gone_aux {db : Database} {key : Nat} {node : Node}
    (hInv : DbInv db) (hc : alook key db.inner = some node) :
    ∀ j n, alook j (asetIn node.neighborKeys (fun n => n.removeConn key)
      (adel key db.inner)) = some n → ¬ NodeHas n key := by
  have hKS : key ∉ node.neighborKeys := by
    rw [mem_neighborKeys]
    exact hInv.noSelf key node hc
  intro j n hj hcon
  have hjkey : j ≠ key := by
    intro hh
    rw [hh] at hj
    rw [alook_asetIn, if_neg hKS, alook_adel_self] at hj
    cases hj
  rw [alook_asetIn, alook_adel_ne _ hjkey] at hj
  by_cases hjS : j ∈ node.neighborKeys
  · rw [if_pos hjS] at hj
    cases h0 : alook j db.inner with
    | none => rw [h0] at hj; cases hj
    | some n0 =>
      rw [h0] at hj
      simp only [Option.map_some', Option.some.injEq] at hj
      rw [← hj] at hcon
      exact ((nodeHas_removeConn n0 key key).mp hcon).2 rfl
  · rw [if_neg hjS] at hj
    obtain ⟨m, hm, hmj⟩ := hInv.mutualRef j n key hj hcon
    rw [hc] at hm
    cases hm
    exact hjS ((mem_neighborKeys node j).mpr hmj)

/-- Concrete state: one node, key 1, value bytes `[7]`. -/
def dbA : Database :=
  { inner := [(1, Node.new [7])], storage := .memory }

/-- Concrete state: nodes 1 and 2, not yet connected. -/
def dbB : Database :=
  { inner := [(2, Node.new [8]), (1, Node.new [7])], storage := .memory }

/-- Concrete state: `connect 1 "x" 2 "y"` applied to `dbB`. -/
def dbC : Database :=
  { inner := [(2, { value := [8], connections := [("y", {1})] }),
              (1, { value := [7], connections := [("x", {2})] })],
    storage := .memory }

theorem reach_dbA : Reach dbA :=
  Reach.create Database.inMemory dbA 1 [7] Reach.empty (by decide)

theorem reach_dbB : Reach dbB :=
  Reach.create dbA dbB 2 [8] reach_dbA (by decide)

theorem reach_dbC : Reach dbC :=
  Reach.connect dbB dbC 1 "x" 2 "y" true reach_dbB (by decide)

/-- Claim C2: referential integrity is an invariant of every reachable database
state: for every sequence of create/connect/remove/disconnect operations
starting from the empty database, after each operation returns, every key
appearing in any node's adjacency set under any label identifies a node
still present in the table. -/
theorem c2_referential_integrity (db : Database) (h : Reach db) :
    ∀ k n j, alook k db.inner = some n → NodeHas n j →
      (alook j db.inner).isSome :=
  (inv_of_reach h).integrity

theorem c2_referential_integrity_witness : (alook 1 dbC.inner).isSome :=
  c2_referential_integrity dbC reach_dbC 2
    { value := [8], connections := [("y", {1})] } 1 (by decide) (by decide)

/-- Claim C4: edge symmetry is an invariant of every reachable database state:
whenever key `b` appears in some label's neighbour set of node `a`, then `a`
appears in some label's neighbour set of node `b`. -/
theorem c4_edge_symmetry (db : Database) (h : Reach db) (a b : Nat)
    (hab : ∃ l, b ∈ Database.select db a l) :
    ∃ l, a ∈ Database.select db b l := by
  obtain ⟨l, hl⟩ := hab
  have hInv := inv_of_reach h
  cases ha : alook a db.inner with
  | none => rw [select_eq_of_none ha] at hl; cases hl
  | some n =>
    rw [select_eq_of_some ha] at hl
    have hnb : NodeHas n b := nodeHas_of_mem_getConnections hl
    obtain ⟨m, hm, hma⟩ := hInv.mutualRef a n b ha hnb
    obtain ⟨kind, hk⟩ :=
      nodeHas_getConnections_of_nodup (hInv.labelsNodup b m hm) hma
    exact ⟨kind, by rw [select_eq_of_some hm]; exact hk⟩

theorem c4_edge_symmetry_witness : ∃ l, 1 ∈ Database.select dbC 2 l :=
  c4_edge_symmetry dbC reach_dbC 1 2 ⟨"x", by decide⟩

/-- Claim C1: for every reachable database state and every key `k` present in the
table, `remove k` returns (no panic), and afterwards `k` does not appear in
any remaining node's adjacency set under any label, and `select j l` for
every key `j` and label `l` returns a set not containing `k`. -/
theorem c1_remove_cascade (db : Database) (h : Reach db) (k : Nat)
    (hk : (alook k db.inner).isSome) :
    ∃ v db', Database.removeM db k = some (some v, db') ∧
      (∀ j n, alook j db'.inner = some n → ¬ NodeHas n k) ∧
      (∀ j l, k ∉ Database.select db' j l) := by
  have hInv := inv_of_reach h
  cases hc : alook k db.inner with
  | none => rw [hc] at hk; cases hk
  | some node =>
    have hall := remove_no_panic hInv hc
    refine ⟨node.value,
      { db with inner := (asetIn node.neighborKeys
        (fun n => n.removeConn k) (adel k db.inner)) },
      removeM_eq_of_some hc hall, ?_, ?_⟩
    · intro j n hj
      simp only at hj
      exact remove_gone_aux hInv hc j n hj
    · intro j l hmem
      cases hj : alook j (asetIn node.neighborKeys
          (fun n => n.removeConn k) (adel k db.inner)) with
      | none =>
        rw [select_eq_of_none hj] at hmem
        cases hmem
      | some n =>
        rw [select_eq_of_some hj] at hmem
        exact remove_gone_aux hInv hc j n hj
          (nodeHas_of_mem_getConnections hmem)

theorem c1_remove_cascade_witness :
    ∃ v db', Database.removeM dbC 1 = some (some v, db') ∧
      (∀ j n, alook j db'.inner = some n → ¬ NodeHas n 1) ∧
      (∀ j l, 1 ∉ Database.select db' j l) :=
  c1_remove_cascade dbC reach_dbC 1 (by decide)

/-- Claim C7: `create` inserts a fresh node with the given value and empty
adjacency under the generated key and returns that key; it is a fatal error
(collision assert) exactly when the generated key already exists, and on the
non-colliding path every other table entry is unchanged. -/
theorem c7_create_spec (db : Database) (k : Nat) (v : List Nat) :
    (Database.createM db k v = none ↔ (alook k db.inner).isSome) ∧
    (∀ db' kr, Database.createM db k v = some (db', kr) →
      kr = k ∧ alook k db'.inner = some (Node.new v) ∧
      (Node.new v).value = v ∧ (Node.new v).connections = [] ∧
      (∀ j, j ≠ k → alook j db'.inner = alook j db.inner) ∧
      db'.storage = db.storage) := by
  constructor
  · unfold Database.createM
    by_cases hk : (alook k db.inner).isSome <;> simp [hk]
  · intro db' kr h
    unfold Database.createM at h
    by_cases hk : (alook k db.inner).isSome
    · rw [if_pos hk] at h
      cases h
    · rw [if_neg hk] at h
      simp only [Option.some.injEq, Prod.mk.injEq] at h
      obtain ⟨hd, hkr⟩ := h
      subst hd
      refine ⟨hkr.symm, ?_, rfl, rfl, ?_, rfl⟩
      · simp only
        rw [alook_cons, if_pos rfl]
      · intro j hj
        simp only
        rw [alook_cons, if_neg (fun hh => hj hh.symm)]

theorem c7_create_spec_witness :
    2 = 2 ∧ alook 2 dbB.inner = some (Node.new [8]) ∧
      (Node.new [8]).value = [8] ∧ (Node.new [8]).connections = [] ∧
      (∀ j, j ≠ 2 → alook j dbB.inner = alook j dbA.inner) ∧
      dbB.storage = dbA.storage :=
  (c7_create_spec dbA 2 [8]).2 dbB 2 (by decide)

/-- Claim C8: `select key label` returns the stored neighbour set when both the
key and the label exist, and the empty set when the key is unknown or the
label is absent; the unknown-key result and the absent-label result are the
same empty set. -/
theorem c8_select_spec (db : Database) (key : Nat) (kind : String) :
    (∀ n, alook key db.inner = some n →
      Database.select db key kind = n.getConnections kind) ∧
    (alook key db.inner = none → Database.select db key kind = ∅) ∧
    (∀ n, alook key db.inner = some n → alook kind n.connections = none →
      Database.select db key kind = ∅) := by
  refine ⟨?_, ?_, ?_⟩
  · intro n hn
    exact select_eq_of_some hn kind
  · intro hn
    exact select_eq_of_none hn kind
  · intro n hn hk
    rw [select_eq_of_some hn kind]
    unfold Node.getConnections
    rw [hk]
    rfl

theorem c8_select_spec_witness : Database.select dbC 3 "x" = ∅ :=
  (c8_select_spec dbC 3 "x").2.1 (by decide)

/-- Claim C3 counterexample: in the two-node state `dbB`, `connect 1 "x" 2 "y"`
succeeds, yet `select 1 "y"` does not contain 2 and `select 2 "x"` does not
contain 1 — the claim's `select(A, l2)` and `select(B, l1)` are empty. The
code adds B under A's FIRST label and A under B's SECOND label. -/
theorem c3_counterexample :
    Database.connectM dbB 1 "x" 2 "y" = some (dbC, true) ∧
    2 ∉ Database.select dbC 1 "y" ∧ 1 ∉ Database.select dbC 2 "x" := by
  decide

/-- Claim C3 (amended): after `connect A l1 B l2` succeeds, `select A l1` contains
B and `select B l2` contains A. -/
theorem c3_connect_symmetry (db db' : Database) (k1 : Nat) (l1 : String)
    (k2 : Nat) (l2 : String)
    (h : Database.connectM db k1 l1 k2 l2 = some (db', true)) :
    k2 ∈ Database.select db' k1 l1 ∧ k1 ∈ Database.select db' k2 l2 := by
  obtain ⟨hne, n1, n2, hl1, hl2, hd⟩ := connectM_true_char h
  have hT1 : alook k1 (aset k2 (fun n => n.connect l2 k1)
      (aset k1 (fun n => n.connect l1 k2) db.inner)) =
      some (n1.connect l1 k2) := by
    rw [alook_aset_pair hne, if_pos rfl, hl1]
    rfl
  have hT2 : alook k2 (aset k2 (fun n => n.connect l2 k1)
      (aset k1 (fun n => n.connect l1 k2) db.inner)) =
      some (n2.connect l2 k1) := by
    rw [alook_aset_pair hne, if_neg (Ne.symm hne), if_pos rfl, hl2]
    rfl
  subst hd
  constructor
  · rw [select_eq_of_some hT1, getConnections_connect_self]
    exact Finset.mem_insert_self _ _
  · rw [select_eq_of_some hT2, getConnections_connect_self]
    exact Finset.mem_insert_self _ _

theorem c3_connect_symmetry_witness :
    2 ∈ Database.select dbC 1 "x" ∧ 1 ∈ Database.select dbC 2 "y" :=
  c3_connect_symmetry dbB dbC 1 "x" 2 "y" (by decide)

/-- Claim C5: for distinct keys, `connect` returns `false` and leaves the table
untouched when either key is absent; when both are present it returns `true`,
adds `k2` to `k1`'s `l1` set and `k1` to `k2`'s `l2` set (two independent
directed entries), and leaves every other entry unchanged. -/
theorem c5_connect_branches (db : Database) (k1 : Nat) (l1 : String)
    (k2 : Nat) (l2 : String) (hne : k1 ≠ k2) :
    (((alook k1 db.inner).isSome = false ∨
       (alook k2 db.inner).isSome = false) →
      Database.connectM db k1 l1 k2 l2 = some (db, false)) ∧
    ((alook k1 db.inner).isSome → (alook k2 db.inner).isSome →
      ∃ db', Database.connectM db k1 l1 k2 l2 = some (db', true) ∧
        Database.select db' k1 l1 = insert k2 (Database.select db k1 l1) ∧
        Database.select db' k2 l2 = insert k1 (Database.select db k2 l2) ∧
        (∀ j, j ≠ k1 → j ≠ k2 → alook j db'.inner = alook j db.inner)) := by
  constructor
  · intro hmiss
    unfold Database.connectM
    rw [if_neg hne]
    cases hl1 : alook k1 db.inner with
    | none => cases hl2 : alook k2 db.inner <;> rfl
    | some n1 =>
      cases hl2 : alook k2 db.inner with
      | none => rfl
      | some n2 =>
        rcases hmiss with hh | hh
        · rw [hl1] at hh
          cases hh
        · rw [hl2] at hh
          cases hh
  · intro hs1 hs2
    obtain ⟨n1, hl1⟩ := Option.isSome_iff_exists.mp hs1
    obtain ⟨n2, hl2⟩ := Option.isSome_iff_exists.mp hs2
    have hT1 : alook k1 (aset k2 (fun n => n.connect l2 k1)
        (aset k1 (fun n => n.connect l1 k2) db.inner)) =
        some (n1.connect l1 k2) := by
      rw [alook_aset_pair hne, if_pos rfl, hl1]
      rfl
    have hT2 : alook k2 (aset k2 (fun n => n.connect l2 k1)
        (aset k1 (fun n => n.connect l1 k2) db.inner)) =
        some (n2.connect l2 k1) := by
      rw [alook_aset_pair hne, if_neg (Ne.symm hne), if_pos rfl, hl2]
      rfl
    refine ⟨{ db with inner := (aset k2 (fun n => n.connect l2 k1)
        (aset k1 (fun n => n.connect l1 k2) db.inner)) }, ?_, ?_, ?_, ?_⟩
    · unfold Database.connectM
      rw [if_neg hne, hl1, hl2]
    · rw [select_eq_of_some hT1, getConnections_connect_self,
        select_eq_of_some hl1]
    · rw [select_eq_of_some hT2, getConnections_connect_self,
        select_eq_of_some hl2]
    · intro j hj1 hj2
      simp only
      rw [alook_aset_pair hne, if_neg hj1, if_neg hj2]

theorem c5_connect_branches_witness :
    ∃ db', Database.connectM dbB 1 "x" 2 "y" = some (db', true) ∧
      Database.select db' 1 "x" = insert 2 (Database.select dbB 1 "x") ∧
      Database.select db' 2 "y" = insert 1 (Database.select dbB 2 "y") ∧
      (∀ j, j ≠ 1 → j ≠ 2 → alook j db'.inner = alook j dbB.inner) :=
  (c5_connect_branches dbB 1 "x" 2 "y" (by decide)).2 (by decide) (by decide)

/-- There is a reachable state holding a key `k` on which `connect k l1 k l2`
returns (rather than aborting). `Database::connect` calls
`get_disjoint_mut [&k, &k]`, which panics on overlapping keys, so this never
happens. -/
def SelfLoopConnectReturns : Prop :=
  ∃ db k l1 l2 r, Reach db ∧ (alook k db.inner).isSome ∧
    Database.connectM db k l1 k l2 = some r

/-- Claim C9 counterexample: no reachable state lets `connect` with the same key on
both sides complete without a fatal error — `get_disjoint_mut` panics on the
overlapping keys before anything is recorded. -/
theorem c9_counterexample : SelfLoopConnectReturns = False := by
  refine eq_false ?_
  rintro ⟨db, k, l1, l2, r, hr, hk, hc⟩
  unfold Database.connectM at hc
  rw [if_pos rfl] at hc
  cases hc

/-- Claim C9 (amended): `connect k l1 k l2` with the same key on both sides is a
fatal error (overlapping-key panic) in every state, so self-loops are never
recorded; but the same pair of distinct nodes may be linked under two
different labels simultaneously, and both labels then report the neighbour. -/
theorem c9_self_loop_amended (db : Database) (k : Nat) (l1 l2 : String) :
    Database.connectM db k l1 k l2 = none ∧
    (∀ db1 db2 (k1 k2 : Nat) (la lb lc ld : String), la ≠ lc →
      Database.connectM db k1 la k2 lb = some (db1, true) →
      Database.connectM db1 k1 lc k2 ld = some (db2, true) →
      k2 ∈ Database.select db2 k1 la ∧ k2 ∈ Database.select db2 k1 lc) := by
  constructor
  · unfold Database.connectM
    rw [if_pos rfl]
  · intro db1 db2 k1 k2 la lb lc ld hlc h1 h2
    obtain ⟨hne, m1, m2, hm1, hm2, hd1⟩ := connectM_true_char h1
    obtain ⟨hne2, p1, p2, hp1, hp2, hd2⟩ := connectM_true_char h2
    have hT1 : alook k1 db1.inner = some (m1.connect la k2) := by
      rw [hd1]
      simp only
      rw [alook_aset_pair hne, if_pos rfl, hm1]
      rfl
    have hp1e : p1 = m1.connect la k2 := by
      rw [hT1] at hp1
      cases hp1
      rfl
    have hT2 : alook k1 db2.inner = some (p1.connect lc k2) := by
      rw [hd2]
      simp only
      rw [alook_aset_pair hne2, if_pos rfl, hp1]
      rfl
    constructor
    · rw [select_eq_of_some hT2, getConnections_connect_ne _ _ hlc, hp1e,
        getConnections_connect_self]
      exact Finset.mem_insert_self _ _
    · rw [select_eq_of_some hT2, getConnections_connect_self]
      exact Finset.mem_insert_self _ _

/-- Concrete state: `dbC` with the pair 1, 2 additionally linked under the
second label pair "u"/"v". -/
def dbD : Database :=
  { inner := [(2, { value := [8], connections := [("v", {1}), ("y", {1})] }),
              (1, { value := [7], connections := [("u", {2}), ("x", {2})] })],
    storage := .memory }

theorem c9_self_loop_amended_witness :
    Database.connectM dbB 5 "a" 5 "b" = none ∧
    (2 ∈ Database.select dbD 1 "x" ∧ 2 ∈ Database.select dbD 1 "u") :=
  ⟨(c9_self_loop_amended dbB 5 "a" "b").1,
   (c9_self_loop_amended dbB 5 "a" "b").2 dbC dbD 1 2 "x" "y" "u" "v"
     (by decide) (by decide) (by decide)⟩

/-- Frame of a successful `connect`/`disconnect` on keys `k1`, `k2`: the key
set is unchanged, every node keeps its stored value, and every node other
than `k1`'s and `k2`'s keeps its whole entry. -/
def FrameOK (db db' : Database) (k1 k2 : Nat) : Prop :=
  (∀ j, (alook j db'.inner).isSome = (alook j db.inner).isSome) ∧
  (∀ j n', alook j db'.inner = some n' →
    ∃ n, alook j db.inner = some n ∧ n'.value = n.value) ∧
  (∀ j, j ≠ k1 → j ≠ k2 → alook j db'.inner = alook j db.inner)

/-- Claim C10: frame property of `connect` and `disconnect`: a successful call
changes no stored value, no key membership, and no entry of any node other
than the two endpoints. -/
theorem c10_connect_disconnect_frame (db : Database) (k1 k2 : Nat)
    (l1 l2 : String) :
    (∀ db', Database.connectM db k1 l1 k2 l2 = some (db', true) →
      FrameOK db db' k1 k2) ∧
    (∀ db', Database.disconnectM db k1 k2 = some (db', true) →
      FrameOK db db' k1 k2) := by
  constructor
  · intro db' h
    obtain ⟨hne, n1, n2, hl1, hl2, hd⟩ := connectM_true_char h
    subst hd
    refine ⟨?_, ?_, ?_⟩
    · intro j
      simp only
      rw [alook_aset_pair hne]
      by_cases hj1 : j = k1
      · rw [if_pos hj1, hj1, hl1]
        rfl
      · by_cases hj2 : j = k2
        · rw [if_neg hj1, if_pos hj2, hj2, hl2]
          rfl
        · rw [if_neg hj1, if_neg hj2]
    · intro j n' hj
      simp only at hj
      rw [alook_aset_pair hne] at hj
      by_cases hj1 : j = k1
      · rw [if_pos hj1, hl1] at hj
        simp only [Option.map_some', Option.some.injEq] at hj
        refine ⟨n1, by rw [hj1]; exact hl1, ?_⟩
        rw [← hj]
        exact value_connect n1 l1 k2
      · by_cases hj2 : j = k2
        · rw [if_neg hj1, if_pos hj2, hl2] at hj
          simp only [Option.map_some', Option.some.injEq] at hj
          refine ⟨n2, by rw [hj2]; exact hl2, ?_⟩
          rw [← hj]
          exact value_connect n2 l2 k1
        · rw [if_neg hj1, if_neg hj2] at hj
          exact ⟨n', hj, rfl⟩
    · intro j hj1 hj2
      simp only
      rw [alook_aset_pair hne, if_neg hj1, if_neg hj2]
  · intro db' h
    obtain ⟨hne, n1, n2, hl1, hl2, hd⟩ := disconnectM_true_char h
    subst hd
    refine ⟨?_, ?_, ?_⟩
    · intro j
      simp only
      rw [alook_aset_pair hne]
      by_cases hj1 : j = k1
      · rw [if_pos hj1, hj1, hl1]
        rfl
      · by_cases hj2 : j = k2
        · rw [if_neg hj1, if_pos hj2, hj2, hl2]
          rfl
        · rw [if_neg hj1, if_neg hj2]
    · intro j n' hj
      simp only at hj
      rw [alook_aset_pair hne] at hj
      by_cases hj1 : j = k1
      · rw [if_pos hj1, hl1] at hj
        simp only [Option.map_some', Option.some.injEq] at hj
        refine ⟨n1, by rw [hj1]; exact hl1, ?_⟩
        rw [← hj]
        exact value_removeConn n1 k2
      · by_cases hj2 : j = k2
        · rw [if_neg hj1, if_pos hj2, hl2] at hj
          simp only [Option.map_some', Option.some.injEq] at hj
          refine ⟨n2, by rw [hj2]; exact hl2, ?_⟩
          rw [← hj]
          exact value_removeConn n2 k1
        · rw [if_neg hj1, if_neg hj2] at hj
          exact ⟨n', hj, rfl⟩
    · intro j hj1 hj2
      simp only
      rw [alook_aset_pair hne, if_neg hj1, if_neg hj2]

theorem c10_connect_disconnect_frame_witness : FrameOK dbB dbC 1 2 :=
  (c10_connect_disconnect_frame dbB 1 2 "x" "y").1 dbC (by decide)

/-- Claim C6: `save` followed by `load` from the same path reconstructs a table
observationally equal to the saved one — same keys, same stored value per
key, same labelled adjacency (hence equal `select` results) — for any
encoder/decoder pair satisfying the round-trip contract the spec demands of
the external serialization capability. -/
theorem c6_save_load_roundtrip {B : Type} (enc : List (Nat × Node) → B)
    (dec : B → Option (List (Nat × Node))) (emptyB : B)
    (hcodec : ∀ t, dec (enc t) = some t) (db : Database) (path : String)
    (fs : String → Option B) (hst : db.storage = .file path) :
    ∃ db' fs', Database.loadF dec emptyB path (Database.saveF enc db fs) =
        some (db', fs') ∧
      db'.inner = db.inner ∧
      (∀ k, Database.get db' k = Database.get db k) ∧
      (∀ k kind, Database.select db' k kind = Database.select db k kind) := by
  refine ⟨{ inner := db.inner, storage := .file path },
    Database.saveF enc db fs, ?_, rfl, fun k => rfl, fun k kind => rfl⟩
  unfold Database.loadF Database.saveF Storage.saveF
  rw [hst]
  simp [hcodec]

/-- Concrete one-node state backed by the file path "p". -/
def dbF : Database :=
  { inner := [(1, Node.new [7])], storage := .file "p" }

theorem c6_save_load_roundtrip_witness :
    ∃ db' fs', Database.loadF (fun b => some b) ([] : List (Nat × Node)) "p"
        (Database.saveF (fun t => t) dbF (fun _ => none)) =
        some (db', fs') ∧
      db'.inner = dbF.inner ∧
      (∀ k, Database.get db' k = Database.get dbF k) ∧
      (∀ k kind, Database.select db' k kind = Database.select dbF k kind) :=
  c6_save_load_roundtrip (fun t => t) (fun b => some b) []
    (fun _ => rfl) dbF "p" (fun _ => none) rfl
